import Mathlib

/-!
# Verification of the solsa manifest-synthesis tool (`bin/solsa.js`)

Shallow embedding of the image-rewrite resolver (`finalizeImageRenames`),
the layer registry / kustomization emitter (`SolsaArchiver`), the resource
classification loop of `yamlCommand`, and the configuration loader (`init`).

Strings are modelled as `List Char`; JavaScript string primitives
(`indexOf`, `substring`, `includes`) are translated to list operations with
the same semantics, including `indexOf`'s clamping of a negative `fromIndex`
to `0`.  Optional / possibly-absent JavaScript string fields are modelled as
`Option (List Char)` with JS truthiness (`undefined` and `""` are falsy).
-/

namespace Solsa

abbrev Str := List Char

/-- An image rewrite rule `{name, newName?, newTag?}` as built by
`finalizeImageRenames` or declared in a context's `images` list. -/
structure ImageRule where
  name : Str
  newName : Option Str := none
  newTag : Option Str := none
  deriving Repr, DecidableEq

/-- A context configuration entry `{name, registry?, imageTag?, images?}`.
An absent `images` field is modelled as `[]`: in the source, both an absent
and an empty `images` array make the explicit-override check a no-op and
contribute nothing to the concatenation `(context.images || []).concat(...)`. -/
structure Context where
  name : Str
  registry : Option Str := none
  imageTag : Option Str := none
  images : List ImageRule := []
  deriving Repr, DecidableEq

/-- JS truthiness of a possibly-absent string: `undefined` and `""` are falsy. -/
def truthy : Option Str → Bool
  | none => false
  | some s => !s.isEmpty

/-- `name.indexOf('/')` used as the start for the colon search:
the JS call `name.indexOf(':', name.indexOf('/'))` clamps the `-1` produced
when there is no slash to `0`. -/
def slashStart (name : Str) : Nat :=
  match name.findIdx? (· = '/') with
  | some i => i
  | none => 0

/-- `const pos = name.indexOf(':', name.indexOf('/'))` — index of the first
colon at or after the first slash, `none` for `-1`. -/
def splitPos (name : Str) : Option Nat :=
  match (name.drop (slashStart name)).findIdx? (· = ':') with
  | some i => some (slashStart name + i)
  | none => none

/-- `newName = pos === -1 ? name : name.substring(0, pos)` and
`newTag = pos === -1 ? undefined : name.substring(pos + 1)`. -/
def splitImage (name : Str) : Str × Option Str :=
  match splitPos name with
  | some pos => (name.take pos, some (name.drop (pos + 1)))
  | none => (name, none)

/-- `context.images && context.images.find(image => image.name === name ||
image.name === newName)` — the explicit-override check of `finalizeImageRenames`. -/
def explicitMatch (context : Context) (name : Str) : Bool :=
  context.images.any fun image => image.name == name || image.name == (splitImage name).1

/-- The candidate rule `k` built for a non-skipped reference:
`const k = { name }`, then `if (context.registry && !name.includes('/'))
k.newName = context.registry + '/' + newName`, and in the untagged branch
`if (context.imageTag) k.newTag = context.imageTag`. -/
def mkRule (context : Context) (name : Str) : ImageRule :=
  let k : ImageRule := { name }
  let k := if truthy context.registry && !(name.contains '/') then
      { k with newName := some (context.registry.getD [] ++ '/' :: (splitImage name).1) }
    else k
  if truthy (splitImage name).2 then k
  else if truthy context.imageTag then { k with newTag := context.imageTag } else k

/-- One iteration of the `for (let name of app.getImages())` loop of
`finalizeImageRenames`, acting on the accumulated derived list `images`. -/
def step (context : Context) (images : List ImageRule) (name : Str) : List ImageRule :=
  if explicitMatch context name then images          -- already kustomized
  else if images.any (fun image => image.name == name) then images  -- already encountered
  else if truthy (splitImage name).2 then
    mkRule context name :: images                    -- images.unshift(k): list tagged images first
  else
    images ++ [mkRule context name]                  -- images.push(k)

/-- The derived portion of the final image list: the local `images` array
after the loop over `app.getImages()`. -/
def derivedPart (context : Context) (appImages : List Str) : List ImageRule :=
  appImages.foldl (step context) []

/-- `finalizeImageRenames(context, app)`:
`return (context.images || []).concat(images)`. -/
def finalizeImageRenames (context : Context) (appImages : List Str) : List ImageRule :=
  context.images ++ appImages.foldl (step context) []

/-- Index of the last occurrence of `c`, used only to state the spec's
"last colon after last slash" split rule. -/
def lastIdxOf (c : Char) : Str → Option Nat
  | [] => none
  | a :: as =>
    match lastIdxOf c as with
    | some i => some (i + 1)
    | none => if a = c then some 0 else none

/-- Modelled from the spec: split an image reference at the last colon
located after the last path separator ("the separator tag colon must be
located after the last path separator"); `tag` is undefined if no such colon
exists.  This is the rule the spec ascribes to `finalizeImageRenames`, stated
here for comparison with the source's `splitImage`. -/
def splitImageSpec (name : Str) : Str × Option Str :=
  let start := match lastIdxOf '/' name with
    | some i => i + 1
    | none => 0
  match lastIdxOf ':' (name.drop start) with
  | some i => (name.take (start + i), some (name.drop (start + i + 1)))
  | none => (name, none)

/-! ## The layer registry, classification loop, and kustomization emitter -/

/-- The `{path, ...}` target descriptor passed to `addJSONPatch`; `path` is
the property used as the key of the `patchesJSON` map. -/
structure Target (τ : Type) where
  path : Str
  payload : τ
  deriving Repr, DecidableEq

/-- A `Layer` as built by the `Layer` constructor in `yamlCommand`.  The JS
keyed accumulation objects are modelled as insertion-ordered association
lists, matching JS object property order; the `{ patch }` wrapper stored in
`patches` and the `{ patch, target }` record in `patchesJSON` are modelled as
the payload itself and a pair. -/
structure Layer (ρ π τ : Type) where
  name : Str
  resources : List (Str × ρ) := []
  bases : List Str := []
  patches : List (Str × π) := []
  patchesJSON : List (Str × (π × Target τ)) := []
  images : List ImageRule := []
  deriving Repr, DecidableEq

/-- JS object property assignment `m[k] = v`: overwrites in place when the
key exists (keeping its position), otherwise appends. -/
def upsert {α : Type} (m : List (Str × α)) (k : Str) (v : α) : List (Str × α) :=
  if m.any (·.1 == k) then m.map (fun p => if p.1 == k then (k, v) else p)
  else m ++ [(k, v)]

def baseName : Str := "base".toList

/-- The base reference `'./../base'` pushed by `finalize` onto every context
layer. -/
def basesRef : Str := "./../base".toList

/-- The `SolsaArchiver` layer map. -/
structure Archiver (ρ π τ : Type) where
  layers : List (Str × Layer ρ π τ)
  deriving Repr, DecidableEq

/-- `this.layers = { base: new Layer('base') }` in the archiver constructor. -/
def initArchiver (ρ π τ : Type) : Archiver ρ π τ :=
  { layers := [(baseName, { name := baseName })] }

/-- `getLayer(name)` followed by a mutation of the returned (aliased) layer
object: the layer is created and registered on first reference. -/
def modifyLayer {ρ π τ : Type} (sa : Archiver ρ π τ) (name : Str)
    (f : Layer ρ π τ → Layer ρ π τ) : Archiver ρ π τ :=
  if sa.layers.any (·.1 == name) then
    { layers := sa.layers.map fun p => if p.1 == name then (p.1, f p.2) else p }
  else
    { layers := sa.layers ++ [(name, f { name })] }

/-- `addResource(obj, fname, layer)`; the caller supplies the JS default
`'base'` for an undefined `layer`. -/
def addResource {ρ π τ : Type} (sa : Archiver ρ π τ) (obj : ρ) (fname : Str) (layer : Str) :
    Archiver ρ π τ :=
  modifyLayer sa layer fun L => { L with resources := upsert L.resources fname obj }

/-- `addPatch(patch, fname, layer)`. -/
def addPatch {ρ π τ : Type} (sa : Archiver ρ π τ) (patch : π) (fname : Str) (layer : Str) :
    Archiver ρ π τ :=
  modifyLayer sa layer fun L => { L with patches := upsert L.patches fname patch }

/-- `addJSONPatch(patch, target, layer)`: keyed on `target.path`. -/
def addJSONPatch {ρ π τ : Type} (sa : Archiver ρ π τ) (patch : π) (target : Target τ)
    (layer : Str) : Archiver ρ π τ :=
  modifyLayer sa layer fun L =>
    { L with patchesJSON := upsert L.patchesJSON target.path (patch, target) }

/-- An item yielded by `app.getResources({config})`.  Possibly-absent or
falsy `obj` / `JSONPatch` / `patch` fields are `none`; `JSONPatchTarget` is
total because the source only reads it when `JSONPatch` is truthy and the
application contract supplies it then. -/
structure Item (ρ π τ : Type) where
  obj : Option ρ := none
  JSONPatch : Option π := none
  JSONPatchTarget : Target τ
  patch : Option π := none
  name : Str := []
  layer : Option Str := none
  deriving Repr, DecidableEq

/-- The synthesis state observable by the claims: the archiver plus the
process-wide warning counter `errors`. -/
structure Synth (ρ π τ : Type) where
  sa : Archiver ρ π τ
  errors : Nat
  deriving Repr, DecidableEq

/-- The body of `for (let item of app.getResources({ config }))` in
`yamlCommand`: dispatch on the first truthy field among `obj`, `JSONPatch`,
`patch`, in that order; an item with none of them is ignored. -/
def classifyItem {ρ π τ : Type} (st : Synth ρ π τ) (item : Item ρ π τ) : Synth ρ π τ :=
  match item.obj with
  | some obj => { st with sa := addResource st.sa obj item.name (item.layer.getD baseName) }
  | none =>
    match item.JSONPatch with
    | some patch =>
      { st with sa := addJSONPatch st.sa patch item.JSONPatchTarget (item.layer.getD baseName) }
    | none =>
      match item.patch with
      | some patch => { st with sa := addPatch st.sa patch item.name (item.layer.getD baseName) }
      | none => st

/-- The whole classification loop over the resource sequence. -/
def processResources {ρ π τ : Type} (st : Synth ρ π τ) (items : List (Item ρ π τ)) :
    Synth ρ π τ :=
  items.foldl classifyItem st

/-- The per-context loop of `finalize`: `getLayer(context.name)`, then
`contextLayer.bases.push('./../base')` and
`contextLayer.images = this.finalizeImageRenames(context, app)`. -/
def finalizeLayers {ρ π τ : Type} (sa : Archiver ρ π τ) (contexts : List Context)
    (appImages : List Str) : Archiver ρ π τ :=
  contexts.foldl (fun sa context =>
    modifyLayer sa context.name fun L =>
      { L with bases := L.bases ++ [basesRef],
               images := finalizeImageRenames context appImages }) sa

/-- The kustomization manifest emitted for a layer by `finalize` (the
constant `apiVersion` and `kind` string fields are carried verbatim in the
source and omitted here; `commonAnnotations` is reduced to its sole value
`app.name`, attached when `app.name` is truthy). -/
structure Kustomization (τ : Type) where
  bases : List Str
  resources : List Str
  patches : List Str
  patchesJson6902 : List (Target τ)
  images : List ImageRule
  commonAnnotations : Option Str
  deriving Repr, DecidableEq

/-- Build the `kustom` object written to `kustomization.yaml` for a layer. -/
def emitKustomization {ρ π τ : Type} (appName : Option Str) (L : Layer ρ π τ) :
    Kustomization τ :=
  { bases := L.bases
    resources := L.resources.map (·.1)
    patches := L.patches.map (·.1)
    patchesJson6902 := L.patchesJSON.map (fun p => p.2.2)
    images := L.images
    commonAnnotations := if truthy appName then appName else none }

/-- Look a layer up by name in the archiver's layer map. -/
def lookupLayer {ρ π τ : Type} (sa : Archiver ρ π τ) (name : Str) : Option (Layer ρ π τ) :=
  (sa.layers.find? (·.1 == name)).map (·.2)

/-! ## The configuration loader `init` -/

/-- The shape of a parsed `contexts` property. -/
inductive CtxField where
  | nonArray
  | array (contexts : List Context)
  deriving Repr, DecidableEq

/-- Outcome of `yaml.safeLoad(fs.readFileSync(name))` as far as `init`
inspects it: `nullish` (null or undefined — any property access throws a
TypeError), `primitive` (a non-object primitive — property reads give
`undefined`, property writes are silent no-ops in sloppy mode), or an object
whose `contexts` property is absent, a non-array value, or an array of
context entries. -/
inductive ConfigVal where
  | nullish
  | primitive
  | object (contexts : Option CtxField)
  deriving Repr, DecidableEq

/-- What `init` returns: the (possibly replaced) `config` binding at the
`return config` statement. -/
inductive ConfigOut where
  | nullish
  | primitive
  | object (contexts : List Context) (context : Option Str)
  deriving Repr, DecidableEq

/-- `init(argv)`.  `context` is the resolved current context (`argv.context`
or the kubectl query), `contextFailed` records that the kubectl query threw;
`load` is `none` when `readFileSync` or `safeLoad` threw.  Note the source
reassigns `config = yaml.safeLoad(...)` before validating it, so when the
file parses to null the subsequent `config.contexts` access throws inside
the `try` and `init` returns the null parse result, and when it parses to a
primitive the repair `config.contexts = []` is a silent no-op. -/
def initModel (context : Option Str) (contextFailed : Bool) (load : Option ConfigVal)
    (errors : Nat) : ConfigOut × Nat :=
  let errors := if contextFailed then errors + 1 else errors
  match load with
  | none => (ConfigOut.object [] none, errors + 1)
  | some ConfigVal.nullish => (ConfigOut.nullish, errors + 1)
  | some ConfigVal.primitive => (ConfigOut.primitive, errors + 1)
  | some (ConfigVal.object none) => (ConfigOut.object [] none, errors + 1)
  | some (ConfigVal.object (some CtxField.nonArray)) => (ConfigOut.object [] none, errors + 1)
  | some (ConfigVal.object (some (CtxField.array ctxs))) =>
    match context with
    | none => (ConfigOut.object ctxs none, errors)
    | some c =>
      if ctxs.any (·.name == c) then (ConfigOut.object ctxs (some c), errors)
      else (ConfigOut.object ctxs none, errors + 1)

example : splitImage "myservice:v1".toList = ("myservice".toList, some "v1".toList) := by decide
example : splitImage "reg:5000/repo".toList = ("reg:5000/repo".toList, none) := by decide
example : splitImage "reg:5000/repo:tag".toList = ("reg:5000/repo".toList, some "tag".toList) := by
  decide
example : splitImage "a:b:c".toList = ("a".toList, some "b:c".toList) := by decide

example :
    finalizeImageRenames { name := "dev".toList, registry := some "reg.example.com".toList }
      ["myservice".toList] =
    [{ name := "myservice".toList, newName := some "reg.example.com/myservice".toList }] := by
  decide

example :
    finalizeImageRenames { name := "prod".toList, imageTag := some "v2".toList }
      ["myservice:v1".toList] =
    [{ name := "myservice:v1".toList }] := by
  decide

example :
    finalizeImageRenames
      { name := "c1".toList,
        images := [{ name := "myservice".toList, newName := some "other/myservice".toList }] }
      ["myservice".toList] =
    [{ name := "myservice".toList, newName := some "other/myservice".toList }] := by
  decide

example :
    finalizeImageRenames { name := "c".toList } ["a".toList, "a:latest".toList] =
    [{ name := "a:latest".toList }, { name := "a".toList }] := by
  decide

/-! ## Characterization of the reference split -/

theorem slashStart_getElem {n : Str} (h : '/' ∈ n) : n[slashStart n]? = some '/' := by
  unfold slashStart
  cases hf : n.findIdx? (· = '/') with
  | none =>
    rw [List.findIdx?_eq_none_iff] at hf
    have := hf '/' h
    simp at this
  | some i =>
    rw [List.findIdx?_eq_some_iff_getElem] at hf
    obtain ⟨hlt, hp, _⟩ := hf
    simp only [decide_eq_true_eq] at hp
    simp [List.getElem?_eq_getElem hlt, hp]

theorem slashStart_min {n : Str} {j : Nat} (hj : j < slashStart n) : n[j]? ≠ some '/' := by
  unfold slashStart at hj
  cases hf : n.findIdx? (· = '/') with
  | none => rw [hf] at hj; simp at hj
  | some i =>
    rw [hf] at hj
    simp only at hj
    rw [List.findIdx?_eq_some_iff_getElem] at hf
    obtain ⟨hlt, _, hmin⟩ := hf
    intro hcol
    obtain ⟨hjlt, hje⟩ := List.getElem?_eq_some_iff.mp hcol
    have := hmin j hj
    simp only [decide_eq_true_eq] at this
    exact this (by simp [hje])

theorem slashStart_eq_zero_of_not_mem {n : Str} (h : '/' ∉ n) : slashStart n = 0 := by
  unfold slashStart
  cases hf : n.findIdx? (· = '/') with
  | none => rfl
  | some i =>
    rw [List.findIdx?_eq_some_iff_getElem] at hf
    obtain ⟨hlt, hp, _⟩ := hf
    simp only [decide_eq_true_eq] at hp
    exact absurd (hp ▸ List.getElem_mem hlt) h

theorem splitPos_def (n : Str) :
    splitPos n = ((n.drop (slashStart n)).findIdx? (· = ':')).map (slashStart n + ·) := by
  unfold splitPos
  cases (n.drop (slashStart n)).findIdx? (· = ':') <;> rfl

theorem splitPos_eq_some_iff {n : Str} {i : Nat} :
    splitPos n = some i ↔
      n[i]? = some ':' ∧ slashStart n ≤ i ∧
        ∀ j, slashStart n ≤ j → j < i → n[j]? ≠ some ':' := by
  rw [splitPos_def]
  constructor
  · intro h
    cases hf : (n.drop (slashStart n)).findIdx? (· = ':') with
    | none => rw [hf] at h; exact absurd h (by simp)
    | some k =>
      rw [hf] at h
      simp only [Option.map_some'] at h
      injection h with h
      subst h
      rw [List.findIdx?_eq_some_iff_getElem] at hf
      obtain ⟨hlt, hp, hmin⟩ := hf
      simp only [decide_eq_true_eq] at hp
      refine ⟨?_, Nat.le_add_right _ _, ?_⟩
      · rw [← List.getElem?_drop, List.getElem?_eq_getElem hlt, hp]
      · intro j hsj hji hcol
        have hd : j - slashStart n < k := by omega
        have hg : (n.drop (slashStart n))[j - slashStart n]? = n[j]? := by
          rw [List.getElem?_drop]; congr 1; omega
        rw [hcol] at hg
        obtain ⟨hjlt, hje⟩ := List.getElem?_eq_some_iff.mp hg
        have := hmin (j - slashStart n) hd
        simp only [decide_eq_true_eq] at this
        exact this hje
  · rintro ⟨hchar, hle, hmin⟩
    obtain ⟨hilt, hie⟩ := List.getElem?_eq_some_iff.mp hchar
    have hlen : (n.drop (slashStart n)).length = n.length - slashStart n :=
      List.length_drop _ _
    have hdlt : i - slashStart n < (n.drop (slashStart n)).length := by omega
    have hfind : (n.drop (slashStart n)).findIdx? (· = ':') = some (i - slashStart n) := by
      rw [List.findIdx?_eq_some_iff_getElem]
      refine ⟨hdlt, ?_, ?_⟩
      · have hg : (n.drop (slashStart n))[i - slashStart n]? = n[i]? := by
          rw [List.getElem?_drop]; congr 1; omega
        rw [List.getElem?_eq_getElem hdlt, List.getElem?_eq_getElem hilt] at hg
        injection hg with hg
        simp [hg, hie]
      · intro j hj
        have hjdlt : j < (n.drop (slashStart n)).length := by omega
        simp only [decide_eq_true_eq]
        intro hcol
        refine hmin (slashStart n + j) (Nat.le_add_right _ _) (by omega) ?_
        rw [← List.getElem?_drop, List.getElem?_eq_getElem hjdlt]
        exact congrArg some hcol
    rw [hfind]
    simp only [Option.map_some']
    congr 1
    omega

theorem splitPos_eq_none_iff {n : Str} :
    splitPos n = none ↔ ∀ j, slashStart n ≤ j → n[j]? ≠ some ':' := by
  rw [splitPos_def]
  cases hf : (n.drop (slashStart n)).findIdx? (· = ':') with
  | none =>
    simp only [Option.map_none', true_iff]
    rw [List.findIdx?_eq_none_iff] at hf
    intro j hj hcol
    have hg : (n.drop (slashStart n))[j - slashStart n]? = n[j]? := by
      rw [List.getElem?_drop]; congr 1; omega
    rw [hcol] at hg
    have := hf ':' (List.getElem?_mem hg)
    simp at this
  | some k =>
    simp only [Option.map_some', reduceCtorEq, false_iff, not_forall]
    rw [List.findIdx?_eq_some_iff_getElem] at hf
    obtain ⟨hlt, hp, _⟩ := hf
    simp only [decide_eq_true_eq] at hp
    refine ⟨slashStart n + k, Nat.le_add_right _ _, ?_⟩
    rw [← List.getElem?_drop, List.getElem?_eq_getElem hlt, hp]
    simp

/-! ## Properties of the candidate rule -/

theorem mkRule_name (context : Context) (name : Str) : (mkRule context name).name = name := by
  simp only [mkRule]
  split_ifs <;> rfl

theorem mkRule_newTag (context : Context) (name : Str) :
    (mkRule context name).newTag =
      if truthy (splitImage name).2 then none
      else if truthy context.imageTag then context.imageTag else none := by
  simp only [mkRule]
  split_ifs <;> rfl

theorem mkRule_newName (context : Context) (name : Str) :
    (mkRule context name).newName =
      if truthy context.registry && !(name.contains '/') then
        some (context.registry.getD [] ++ '/' :: (splitImage name).1)
      else none := by
  simp only [mkRule]
  split_ifs <;> rfl

/-! ## Properties of the resolution loop -/

theorem mem_step {context : Context} {s : List ImageRule} {name : Str} {r : ImageRule}
    (h : r ∈ step context s name) :
    r ∈ s ∨ (r = mkRule context name ∧ explicitMatch context name = false ∧
      s.any (fun image => image.name == name) = false) := by
  unfold step at h
  split at h
  · exact Or.inl h
  next hexp =>
    split at h
    next hdup => exact Or.inl h
    next hdup =>
      split at h
      · rcases List.mem_cons.mp h with h | h
        · exact Or.inr ⟨h, by simpa using hexp, by simpa using hdup⟩
        · exact Or.inl h
      · rcases List.mem_append.mp h with h | h
        · exact Or.inl h
        · exact Or.inr ⟨List.mem_singleton.mp h, by simpa using hexp, by simpa using hdup⟩

theorem mem_step_of_mem {context : Context} {s : List ImageRule} {name : Str} {r : ImageRule}
    (h : r ∈ s) : r ∈ step context s name := by
  unfold step
  split
  · exact h
  · split
    · exact h
    · split
      · exact List.mem_cons_of_mem _ h
      · exact List.mem_append_left _ h

theorem mem_foldl_step {context : Context} :
    ∀ (l : List Str) (s : List ImageRule) (r : ImageRule), r ∈ l.foldl (step context) s →
      r ∈ s ∨ ∃ n ∈ l, r = mkRule context n ∧ explicitMatch context n = false := by
  intro l
  induction l with
  | nil => exact fun s r h => Or.inl h
  | cons m l ih =>
    intro s r h
    rcases ih (step context s m) r h with h | ⟨n, hn, hr⟩
    · rcases mem_step h with h | ⟨hr, hexp, _⟩
      · exact Or.inl h
      · exact Or.inr ⟨m, List.mem_cons_self _ _, hr, hexp⟩
    · exact Or.inr ⟨n, List.mem_cons_of_mem _ hn, hr⟩

theorem mem_derivedPart {context : Context} {l : List Str} {r : ImageRule}
    (h : r ∈ derivedPart context l) :
    ∃ n ∈ l, r = mkRule context n ∧ explicitMatch context n = false := by
  rcases mem_foldl_step l [] r h with h | h
  · simp at h
  · exact h

theorem any_foldl_step {context : Context} (p : ImageRule → Bool) :
    ∀ (l : List Str) (s : List ImageRule), s.any p = true → (l.foldl (step context) s).any p = true := by
  intro l
  induction l with
  | nil => exact fun s h => h
  | cons n l ih =>
    intro s h
    refine ih _ ?_
    rcases List.any_eq_true.mp h with ⟨r, hr, hp⟩
    exact List.any_eq_true.mpr ⟨r, mem_step_of_mem hr, hp⟩

theorem any_name_step_self {context : Context} {s : List ImageRule} {name : Str}
    (hexp : explicitMatch context name = false) :
    (step context s name).any (fun image => image.name == name) = true := by
  unfold step
  split
  next h => rw [hexp] at h; exact absurd h (by simp)
  · split
    next h => exact h
    · split
      · exact List.any_eq_true.mpr
          ⟨mkRule context name, List.mem_cons_self _ _, by simp [mkRule_name]⟩
      · exact List.any_eq_true.mpr
          ⟨mkRule context name, List.mem_append_right _ (List.mem_singleton_self _),
            by simp [mkRule_name]⟩

theorem step_eq_of_explicit {context : Context} {s : List ImageRule} {name : Str}
    (h : explicitMatch context name = true) : step context s name = s := by
  unfold step
  simp [h]

theorem step_eq_of_any {context : Context} {s : List ImageRule} {name : Str}
    (h : s.any (fun image => image.name == name) = true) : step context s name = s := by
  unfold step
  split
  · rfl
  · simp [h]

theorem not_name_mem_of_any_eq_false {s : List ImageRule} {name : Str}
    (h : s.any (fun image => image.name == name) = false) :
    ∀ r ∈ s, r.name ≠ name := by
  intro r hr hEq
  rw [List.any_eq_false] at h
  exact absurd (by simp [hEq]) (h r hr)

theorem nodup_foldl_step {context : Context} :
    ∀ (l : List Str) (s : List ImageRule), (s.map (·.name)).Nodup →
      ((l.foldl (step context) s).map (·.name)).Nodup := by
  intro l
  induction l with
  | nil => exact fun s h => h
  | cons n l ih =>
    intro s h
    refine ih _ ?_
    unfold step
    split
    · exact h
    · split
      · exact h
      next hdup =>
        have hnot : ∀ r ∈ s, r.name ≠ n :=
          not_name_mem_of_any_eq_false (by simpa using hdup)
        split
        · simp only [List.map_cons, List.nodup_cons, mkRule_name]
          refine ⟨?_, h⟩
          intro hmem
          rcases List.mem_map.mp hmem with ⟨r, hr, hname⟩
          exact hnot r hr hname
        · rw [List.map_append, List.nodup_append]
          refine ⟨h, by simp, ?_⟩
          intro a ha hb
          simp only [List.map_cons, List.map_nil, List.mem_cons, List.not_mem_nil,
            or_false, mkRule_name] at hb
          rcases List.mem_map.mp ha with ⟨r, hr, hname⟩
          exact hnot r hr (hname.trans hb)

theorem partition_foldl_step {context : Context} :
    ∀ (l : List Str) (s : List ImageRule),
      (∃ t u, s = t ++ u ∧ (∀ r ∈ t, truthy (splitImage r.name).2 = true) ∧
        (∀ r ∈ u, truthy (splitImage r.name).2 = false)) →
      ∃ t u, l.foldl (step context) s = t ++ u ∧
        (∀ r ∈ t, truthy (splitImage r.name).2 = true) ∧
        (∀ r ∈ u, truthy (splitImage r.name).2 = false) := by
  intro l
  induction l with
  | nil => exact fun s h => h
  | cons n l ih =>
    rintro s ⟨t, u, rfl, ht, hu⟩
    refine ih _ ?_
    unfold step
    split
    · exact ⟨t, u, rfl, ht, hu⟩
    · split
      · exact ⟨t, u, rfl, ht, hu⟩
      · split
        next htag =>
          refine ⟨mkRule context n :: t, u, by simp, ?_, hu⟩
          intro r hr
          rcases List.mem_cons.mp hr with rfl | hr
          · rw [mkRule_name]; exact htag
          · exact ht r hr
        next htag =>
          refine ⟨t, u ++ [mkRule context n], by simp, ht, ?_⟩
          intro r hr
          rcases List.mem_append.mp hr with hr | hr
          · exact hu r hr
          · rw [List.mem_singleton.mp hr, mkRule_name]
            simpa using htag

theorem any_name_foldl {context : Context} :
    ∀ (l : List Str) (s : List ImageRule) (n : Str), n ∈ l → explicitMatch context n = false →
      (l.foldl (step context) s).any (fun image => image.name == n) = true := by
  intro l
  induction l with
  | nil => simp
  | cons m l ih =>
    intro s n hn hexp
    rcases List.mem_cons.mp hn with rfl | hn
    · exact any_foldl_step _ l _ (any_name_step_self hexp)
    · exact ih _ n hn hexp

theorem foldl_step_dup (context : Context) (l1 l2 l3 : List Str) (x : Str) :
    (l1 ++ x :: (l2 ++ x :: l3)).foldl (step context) [] =
    (l1 ++ x :: (l2 ++ l3)).foldl (step context) [] := by
  simp only [List.foldl_append, List.foldl_cons]
  have hstep : step context (l2.foldl (step context) (step context (l1.foldl (step context) []) x)) x
      = l2.foldl (step context) (step context (l1.foldl (step context) []) x) := by
    by_cases hexp : explicitMatch context x = true
    · exact step_eq_of_explicit hexp
    · have hexp' : explicitMatch context x = false := by simpa using hexp
      exact step_eq_of_any (any_foldl_step _ l2 _ (any_name_step_self hexp'))
  rw [hstep]

theorem contains_iff_mem {l : Str} {c : Char} : l.contains c = true ↔ c ∈ l :=
  List.elem_iff

/-- The repo part produced by the split contains a path separator exactly when
the full reference does: the split position is at or after the first slash. -/
theorem splitImage_fst_contains_slash (n : Str) :
    (splitImage n).1.contains '/' = n.contains '/' := by
  unfold splitImage
  cases h : splitPos n with
  | none => rfl
  | some i =>
    simp only
    rw [Bool.eq_iff_iff]
    simp only [contains_iff_mem]
    constructor
    · exact List.mem_of_mem_take
    · intro hs
      obtain ⟨hchar, hle, _⟩ := splitPos_eq_some_iff.mp h
      have hg : n[slashStart n]? = some '/' := slashStart_getElem hs
      have hne : slashStart n ≠ i := by
        intro hEq
        rw [hEq, hchar] at hg
        simp at hg
      have hlt : slashStart n < i := by omega
      have : (n.take i)[slashStart n]? = some '/' := by
        rw [List.getElem?_take_of_lt hlt]; exact hg
      exact List.getElem?_mem this

/-! ## Claim theorems for the image rewrite resolver -/

/-- C1: the final image list is the context's explicit `images` entries, in
declared order, followed by all derived entries; and no derived rule is
generated for a reference whose literal name or parsed repo part equals the
name of some explicit rule. -/
theorem explicit_before_derived_and_suppressing (context : Context) (l : List Str) :
    finalizeImageRenames context l = context.images ++ derivedPart context l
    ∧ ∀ r ∈ derivedPart context l, explicitMatch context r.name = false := by
  refine ⟨rfl, ?_⟩
  intro r hr
  obtain ⟨n, _, rfl, hexp⟩ := mem_derivedPart hr
  rw [mkRule_name]
  exact hexp

/-- Witness for C1 at the spec's override scenario extended with a second,
non-overridden reference. -/
theorem explicit_before_derived_and_suppressing_w :
    finalizeImageRenames
        { name := "c1".toList,
          images := [{ name := "myservice".toList, newName := some "other/myservice".toList }] }
        ["myservice".toList, "web".toList]
      = ({ name := "c1".toList,
            images :=
              [{ name := "myservice".toList, newName := some "other/myservice".toList }] } :
            Context).images
        ++ derivedPart
            { name := "c1".toList,
              images :=
                [{ name := "myservice".toList, newName := some "other/myservice".toList }] }
            ["myservice".toList, "web".toList]
    ∧ explicitMatch
        { name := "c1".toList,
          images := [{ name := "myservice".toList, newName := some "other/myservice".toList }] }
        "web".toList = false := by
  have h := explicit_before_derived_and_suppressing
    { name := "c1".toList,
      images := [{ name := "myservice".toList, newName := some "other/myservice".toList }] }
    ["myservice".toList, "web".toList]
  exact ⟨h.1, h.2 { name := "web".toList } (by decide)⟩

/-- C2 counterexample: on the reference `"a:b:c"` the source splits at the
first colon (repo part `"a"`, tag `"b:c"`), not at the last colon after the
last path separator (repo part `"a:b"`, tag `"c"`); the difference is
observable in the derived rule's `newName` under a context registry. -/
theorem split_not_last_colon_counterexample :
    splitImage "a:b:c".toList = ("a".toList, some "b:c".toList)
    ∧ splitImageSpec "a:b:c".toList = ("a:b".toList, some "c".toList)
    ∧ splitImage "a:b:c".toList ≠ splitImageSpec "a:b:c".toList
    ∧ finalizeImageRenames { name := "c".toList, registry := some "r".toList }
        ["a:b:c".toList]
      = [{ name := "a:b:c".toList, newName := some "r/a".toList }] := by
  decide

/-- C2 amended: `finalizeImageRenames` splits a reference at the first colon
at or after the first path separator (searching from the start when there is
no separator); the tag is undefined exactly when no such colon exists. -/
theorem split_first_colon_after_first_slash (n : Str) (i : Nat) :
    (splitPos n = some i ↔
      n[i]? = some ':' ∧ slashStart n ≤ i ∧
        ∀ j, slashStart n ≤ j → j < i → n[j]? ≠ some ':')
    ∧ (splitPos n = none ↔ ∀ j, slashStart n ≤ j → n[j]? ≠ some ':')
    ∧ ('/' ∈ n → n[slashStart n]? = some '/')
    ∧ ('/' ∉ n → slashStart n = 0)
    ∧ (∀ j, j < slashStart n → n[j]? ≠ some '/')
    ∧ (splitPos n = some i → splitImage n = (n.take i, some (n.drop (i + 1))))
    ∧ (splitPos n = none → splitImage n = (n, none)) := by
  refine ⟨splitPos_eq_some_iff, splitPos_eq_none_iff, slashStart_getElem,
    slashStart_eq_zero_of_not_mem, fun _ h => slashStart_min h, ?_, ?_⟩
  · intro h; unfold splitImage; rw [h]
  · intro h; unfold splitImage; rw [h]

/-- Witness for C2 amended: the characterization pins the split of `"a:b:c"`
to the first colon, position 1. -/
theorem split_first_colon_after_first_slash_w :
    splitPos "a:b:c".toList = some 1 := by
  refine ((split_first_colon_after_first_slash "a:b:c".toList 1).1).mpr
    ⟨by decide, by decide, ?_⟩
  intro j h1 h2
  have hs : slashStart "a:b:c".toList = 0 := by decide
  have : j = 0 := by omega
  subst this
  decide

/-- C3: a tagged reference's derived rule is prepended and never carries a
`newTag`; an untagged reference's rule is appended and carries
`newTag = imageTag` exactly when the context declares `imageTag`; hence all
tagged-image derived rules precede all untagged-image ones. -/
theorem tagged_first_untagged_tagged_with_default (context : Context) (l : List Str) :
    (∀ r ∈ derivedPart context l, truthy (splitImage r.name).2 = true → r.newTag = none)
    ∧ (∀ r ∈ derivedPart context l, truthy (splitImage r.name).2 = false →
        r.newTag = if truthy context.imageTag then context.imageTag else none)
    ∧ (∀ s n, explicitMatch context n = false → s.any (fun image => image.name == n) = false →
        step context s n =
          if truthy (splitImage n).2 then mkRule context n :: s else s ++ [mkRule context n])
    ∧ ∃ t u, finalizeImageRenames context l = context.images ++ (t ++ u)
        ∧ (∀ r ∈ t, truthy (splitImage r.name).2 = true)
        ∧ (∀ r ∈ u, truthy (splitImage r.name).2 = false) := by
  refine ⟨?_, ?_, ?_, ?_⟩
  · intro r hr htag
    obtain ⟨n, _, rfl, _⟩ := mem_derivedPart hr
    rw [mkRule_name] at htag
    rw [mkRule_newTag, if_pos htag]
  · intro r hr htag
    obtain ⟨n, _, rfl, _⟩ := mem_derivedPart hr
    rw [mkRule_name] at htag
    rw [mkRule_newTag, htag]
    simp
  · intro s n h1 h2
    unfold step
    rw [h1, h2]
    simp
  · obtain ⟨t, u, he, ht, hu⟩ :=
      @partition_foldl_step context l [] ⟨[], [], rfl, by simp, by simp⟩
    exact ⟨t, u, by rw [finalizeImageRenames, he], ht, hu⟩

/-- Witness for C3 at the spec's tagged scenario plus an untagged reference:
context `prod` with `imageTag` `v2`, images `myservice:v1` (tagged, rule kept
without `newTag`) and `web` (untagged, rule tagged `v2`). -/
theorem tagged_first_untagged_tagged_with_default_w :
    ({ name := "myservice:v1".toList } : ImageRule).newTag = none
    ∧ ({ name := "web".toList, newTag := some "v2".toList } : ImageRule).newTag =
        (if truthy ({ name := "prod".toList, imageTag := some "v2".toList } : Context).imageTag
          then ({ name := "prod".toList, imageTag := some "v2".toList } : Context).imageTag
          else none)
    ∧ step { name := "prod".toList, imageTag := some "v2".toList } [] "web".toList =
        (if truthy (splitImage "web".toList).2 then
          mkRule { name := "prod".toList, imageTag := some "v2".toList } "web".toList :: []
        else [] ++ [mkRule { name := "prod".toList, imageTag := some "v2".toList } "web".toList]) := by
  have h := tagged_first_untagged_tagged_with_default
    { name := "prod".toList, imageTag := some "v2".toList }
    ["myservice:v1".toList, "web".toList]
  exact ⟨h.1 { name := "myservice:v1".toList } (by decide) (by decide),
    h.2.1 { name := "web".toList, newTag := some "v2".toList } (by decide) (by decide),
    h.2.2.1 [] "web".toList (by decide) (by decide)⟩

/-- C4: the derived portion contains no two rules with the same `name`;
identity is the literal reference string, and every non-overridden declared
reference is represented by a rule under exactly that literal name. -/
theorem derived_names_distinct (context : Context) (l : List Str) :
    ((derivedPart context l).map (·.name)).Nodup
    ∧ ∀ n ∈ l, explicitMatch context n = false →
        (derivedPart context l).any (fun image => image.name == n) = true :=
  ⟨nodup_foldl_step l [] (by simp), fun n hn hexp => any_name_foldl l [] n hn hexp⟩

/-- Witness for C4 on the spec's scenario 4: `"a"` and `"a:latest"` share a
repo part yet both obtain their own derived rule. -/
theorem derived_names_distinct_w :
    ((derivedPart { name := "c".toList } ["a".toList, "a:latest".toList]).map (·.name)).Nodup
    ∧ (derivedPart { name := "c".toList } ["a".toList, "a:latest".toList]).any
        (fun image => image.name == "a".toList) = true
    ∧ (derivedPart { name := "c".toList } ["a".toList, "a:latest".toList]).any
        (fun image => image.name == "a:latest".toList) = true := by
  have h := derived_names_distinct { name := "c".toList } ["a".toList, "a:latest".toList]
  exact ⟨h.1, h.2 "a".toList (by decide) (by decide), h.2 "a:latest".toList (by decide) (by decide)⟩

/-- C5: under a context registry, a derived rule gets
`newName = registry + '/' + repoPart` exactly when its repo part contains no
path separator, and no `newName` otherwise. -/
theorem registry_prefix_for_unqualified (context : Context) (l : List Str) (r : ImageRule)
    (hreg : truthy context.registry = true) (hr : r ∈ derivedPart context l) :
    ((splitImage r.name).1.contains '/' = false →
      r.newName = some (context.registry.getD [] ++ '/' :: (splitImage r.name).1))
    ∧ ((splitImage r.name).1.contains '/' = true → r.newName = none) := by
  obtain ⟨n, _, rfl, _⟩ := mem_derivedPart hr
  rw [mkRule_name]
  constructor
  · intro hnoslash
    rw [splitImage_fst_contains_slash] at hnoslash
    rw [mkRule_newName, hreg, hnoslash]
    simp
  · intro hslash
    rw [splitImage_fst_contains_slash] at hslash
    rw [mkRule_newName, hreg, hslash]
    simp

/-- Witness for C5 at the spec's scenario 1: context `dev` with registry
`reg.example.com` and the untagged unqualified image `myservice`. -/
theorem registry_prefix_for_unqualified_w :
    ({ name := "myservice".toList,
        newName := some "reg.example.com/myservice".toList } : ImageRule).newName =
      some ((({ name := "dev".toList,
                registry := some "reg.example.com".toList } : Context).registry).getD []
        ++ '/' :: (splitImage ({ name := "myservice".toList,
                                 newName := some "reg.example.com/myservice".toList } :
                                ImageRule).name).1)
    ∧ finalizeImageRenames { name := "dev".toList, registry := some "reg.example.com".toList }
        ["myservice".toList]
      = [{ name := "myservice".toList, newName := some "reg.example.com/myservice".toList }] := by
  refine ⟨?_, by decide⟩
  exact (registry_prefix_for_unqualified
    { name := "dev".toList, registry := some "reg.example.com".toList }
    ["myservice".toList]
    { name := "myservice".toList, newName := some "reg.example.com/myservice".toList }
    (by decide) (by decide)).1 (by decide)

/-- C6: resolution is deterministic, and a repeated occurrence of a
reference contributes nothing: dropping it leaves the output unchanged. -/
theorem resolver_deterministic_and_duplicate_free (context context' : Context)
    (l l' l1 l2 l3 : List Str) (x : Str) (h1 : context = context') (h2 : l = l') :
    finalizeImageRenames context l = finalizeImageRenames context' l'
    ∧ finalizeImageRenames context (l1 ++ x :: (l2 ++ x :: l3)) =
        finalizeImageRenames context (l1 ++ x :: (l2 ++ l3)) := by
  subst h1
  subst h2
  refine ⟨rfl, ?_⟩
  unfold finalizeImageRenames
  rw [foldl_step_dup]

/-- Witness for C6: a duplicated untagged reference in a registry context. -/
theorem resolver_deterministic_and_duplicate_free_w :
    finalizeImageRenames { name := "dev".toList, registry := some "r".toList }
        ["svc".toList]
      = finalizeImageRenames { name := "dev".toList, registry := some "r".toList }
        ["svc".toList]
    ∧ finalizeImageRenames { name := "dev".toList, registry := some "r".toList }
        ([] ++ "svc".toList :: ([] ++ "svc".toList :: []))
      = finalizeImageRenames { name := "dev".toList, registry := some "r".toList }
        ([] ++ "svc".toList :: ([] ++ [])) :=
  resolver_deterministic_and_duplicate_free
    { name := "dev".toList, registry := some "r".toList }
    { name := "dev".toList, registry := some "r".toList }
    ["svc".toList] ["svc".toList] [] [] [] "svc".toList rfl rfl

/-- C10: the returned list's prefix is the context's explicit rule list,
element for element, and the remainder is exactly the derived rules; the
context's own `images` value contributes to the output only by being copied
in front. -/
theorem explicit_rules_prefix_unchanged (context : Context) (l : List Str) :
    (finalizeImageRenames context l).take context.images.length = context.images
    ∧ (finalizeImageRenames context l).drop context.images.length = derivedPart context l := by
  unfold finalizeImageRenames
  exact ⟨List.take_left _ _, List.drop_left _ _⟩

/-! ## Properties of the layer registry -/

theorem lookupLayer_init (ρ π τ : Type) :
    lookupLayer (initArchiver ρ π τ) baseName = some { name := baseName } := by
  unfold lookupLayer initArchiver
  simp

theorem lookupLayer_modifyLayer {ρ π τ : Type} (sa : Archiver ρ π τ) (m : Str)
    (f : Layer ρ π τ → Layer ρ π τ) (n : Str) :
    lookupLayer (modifyLayer sa m f) n =
      if n = m then some (f ((lookupLayer sa m).getD { name := m }))
      else lookupLayer sa n := by
  unfold modifyLayer lookupLayer
  split
  next hany =>
    simp only
    have hpred : ((fun p => p.1 == n) ∘ fun p : Str × Layer ρ π τ =>
        if (p.1 == m) = true then (p.1, f p.2) else p) =
        (fun p : Str × Layer ρ π τ => p.1 == n) := by
      funext p
      show ((if (p.1 == m) = true then (p.1, f p.2) else p).1 == n) = (p.1 == n)
      split <;> rfl
    rw [List.find?_map, hpred]
    by_cases hnm : n = m
    · subst hnm
      have hsome : (sa.layers.find? (fun p => p.1 == n)).isSome := by
        rw [List.find?_isSome]
        exact List.any_eq_true.mp hany
      obtain ⟨p0, hp0⟩ := Option.isSome_iff_exists.mp hsome
      have hkey : (p0.1 == n) = true := List.find?_some (p := fun q : Str × Layer ρ π τ => q.1 == n) hp0
      rw [hp0, if_pos rfl]
      simp only [Option.map_some', Option.getD_some]
      rw [if_pos hkey]
    · rw [if_neg hnm]
      cases hf : sa.layers.find? (fun p => p.1 == n) with
      | none => simp
      | some p0 =>
        have hkey : (p0.1 == n) = true := List.find?_some (p := fun q : Str × Layer ρ π τ => q.1 == n) hf
        have hkey2 : (p0.1 == m) = false := by
          rw [beq_eq_false_iff_ne]
          intro hEq
          exact hnm ((eq_of_beq hkey).symm ▸ hEq)
        simp only [Option.map_some']
        rw [if_neg (by simp [hkey2])]
  next hany =>
    simp only
    rw [List.find?_append]
    have hany2 : sa.layers.any (fun p : Str × Layer ρ π τ => p.1 == m) = false :=
      Bool.eq_false_iff.mpr hany
    by_cases hnm : n = m
    · subst hnm
      have hnone : sa.layers.find? (fun p => p.1 == n) = none := by
        rw [List.find?_eq_none]
        intro p hp hkey
        rw [List.any_eq_false] at hany2
        exact absurd hkey (by simpa using hany2 p hp)
      rw [hnone, if_pos rfl]
      simp [List.find?_cons]
    · rw [if_neg hnm]
      have hsingle : ([(m, f { name := m })].find? fun p : Str × Layer ρ π τ => p.1 == n)
          = none := by
        have hmn : (m == n) = false := by
          rw [beq_eq_false_iff_ne]
          exact fun hEq => hnm hEq.symm
        simp [List.find?_cons, hmn]
      rw [hsingle]
      simp

theorem lookupLayer_isSome_modifyLayer {ρ π τ : Type} {sa : Archiver ρ π τ} {m : Str}
    {f : Layer ρ π τ → Layer ρ π τ} {n : Str} (h : (lookupLayer sa n).isSome) :
    (lookupLayer (modifyLayer sa m f) n).isSome := by
  rw [lookupLayer_modifyLayer]
  split
  · rfl
  · exact h

theorem bases_empty_modifyLayer {ρ π τ : Type} {sa : Archiver ρ π τ} {k : Str}
    {f : Layer ρ π τ → Layer ρ π τ}
    (h : ∀ m L, lookupLayer sa m = some L → L.bases = [])
    (hf : ∀ L, (f L).bases = L.bases) :
    ∀ m L, lookupLayer (modifyLayer sa k f) m = some L → L.bases = [] := by
  intro m L hL
  rw [lookupLayer_modifyLayer] at hL
  split at hL
  · injection hL with hL
    subst hL
    rw [hf]
    cases hlk : lookupLayer sa k with
    | none => rfl
    | some L0 => exact h k L0 hlk
  · exact h m L hL

theorem bases_empty_classifyItem {ρ π τ : Type} (st : Synth ρ π τ) (item : Item ρ π τ)
    (h : ∀ m L, lookupLayer st.sa m = some L → L.bases = []) :
    ∀ m L, lookupLayer (classifyItem st item).sa m = some L → L.bases = [] := by
  unfold classifyItem
  cases item.obj with
  | some o => exact bases_empty_modifyLayer h (fun L => rfl)
  | none =>
    cases item.JSONPatch with
    | some p => exact bases_empty_modifyLayer h (fun L => rfl)
    | none =>
      cases item.patch with
      | some p => exact bases_empty_modifyLayer h (fun L => rfl)
      | none => exact h

theorem bases_empty_processResources {ρ π τ : Type} :
    ∀ (items : List (Item ρ π τ)) (st : Synth ρ π τ),
      (∀ m L, lookupLayer st.sa m = some L → L.bases = []) →
      ∀ m L, lookupLayer (processResources st items).sa m = some L → L.bases = [] := by
  intro items
  induction items with
  | nil => exact fun st h => h
  | cons item items ih =>
    intro st h
    exact ih (classifyItem st item) (bases_empty_classifyItem st item h)

theorem bases_empty_initArchiver (ρ π τ : Type) :
    ∀ m L, lookupLayer (initArchiver ρ π τ) m = some L → L.bases = [] := by
  intro m L hL
  unfold lookupLayer initArchiver at hL
  simp only [List.find?_cons] at hL
  split at hL
  · injection hL with hL
    subst hL
    rfl
  · simp at hL

theorem base_present_classifyItem {ρ π τ : Type} (st : Synth ρ π τ) (item : Item ρ π τ)
    {n : Str} (h : (lookupLayer st.sa n).isSome) :
    (lookupLayer (classifyItem st item).sa n).isSome := by
  unfold classifyItem
  cases item.obj with
  | some o => exact lookupLayer_isSome_modifyLayer h
  | none =>
    cases item.JSONPatch with
    | some p => exact lookupLayer_isSome_modifyLayer h
    | none =>
      cases item.patch with
      | some p => exact lookupLayer_isSome_modifyLayer h
      | none => exact h

theorem base_present_processResources {ρ π τ : Type} :
    ∀ (items : List (Item ρ π τ)) (st : Synth ρ π τ) {n : Str},
      (lookupLayer st.sa n).isSome → (lookupLayer (processResources st items).sa n).isSome := by
  intro items
  induction items with
  | nil =>
    intro st n h
    exact h
  | cons item items ih =>
    intro st n h
    exact ih (classifyItem st item) (base_present_classifyItem st item h)

theorem finalizeLayers_cons {ρ π τ : Type} (sa : Archiver ρ π τ) (c : Context)
    (rest : List Context) (imgs : List Str) :
    finalizeLayers sa (c :: rest) imgs =
      finalizeLayers
        (modifyLayer sa c.name fun L =>
          { L with bases := L.bases ++ [basesRef],
                   images := finalizeImageRenames c imgs }) rest imgs := rfl

theorem lookupLayer_finalizeLayers_of_ne {ρ π τ : Type} :
    ∀ (contexts : List Context) (sa : Archiver ρ π τ) (imgs : List Str) (n : Str),
      (∀ ctx ∈ contexts, ctx.name ≠ n) →
      lookupLayer (finalizeLayers sa contexts imgs) n = lookupLayer sa n := by
  intro contexts
  induction contexts with
  | nil => exact fun sa imgs n _ => rfl
  | cons c rest ih =>
    intro sa imgs n h
    rw [finalizeLayers_cons, ih _ imgs n (fun ctx hc => h ctx (List.mem_cons_of_mem _ hc)),
      lookupLayer_modifyLayer, if_neg]
    exact fun hEq => h c (List.mem_cons_self _ _) hEq.symm

theorem bases_after_finalizeLayers {ρ π τ : Type} :
    ∀ (contexts : List Context) (sa : Archiver ρ π τ) (imgs : List Str),
      (contexts.map (·.name)).Nodup →
      (∀ ctx ∈ contexts, ∀ L, lookupLayer sa ctx.name = some L → L.bases = []) →
      ∀ ctx ∈ contexts, ∃ L,
        lookupLayer (finalizeLayers sa contexts imgs) ctx.name = some L
          ∧ L.bases = [basesRef] := by
  intro contexts
  induction contexts with
  | nil =>
    intro sa imgs _ _ ctx h
    cases h
  | cons c rest ih =>
    intro sa imgs hnd hempty ctx hc
    rw [List.map_cons, List.nodup_cons] at hnd
    rw [finalizeLayers_cons]
    rcases List.mem_cons.mp hc with rfl | hc
    · have hnotin : ∀ ctx' ∈ rest, ctx'.name ≠ ctx.name := by
        intro ctx' h' hEq
        exact hnd.1 (hEq ▸ List.mem_map_of_mem _ h')
      rw [lookupLayer_finalizeLayers_of_ne rest _ imgs ctx.name hnotin,
        lookupLayer_modifyLayer, if_pos rfl]
      refine ⟨_, rfl, ?_⟩
      show ((lookupLayer sa ctx.name).getD { name := ctx.name }).bases ++ [basesRef]
        = [basesRef]
      cases hlk : lookupLayer sa ctx.name with
      | none => rfl
      | some L0 =>
        show L0.bases ++ [basesRef] = [basesRef]
        rw [hempty ctx (List.mem_cons_self _ _) L0 hlk]
        rfl
    · refine ih _ imgs hnd.2 ?_ ctx hc
      intro ctx' h' L hL
      rw [lookupLayer_modifyLayer] at hL
      split at hL
      next hEq => exact absurd (hEq ▸ List.mem_map_of_mem (·.name) h') hnd.1
      · exact hempty ctx' (List.mem_cons_of_mem _ h') L hL

/-! ## Claim theorems for the layer structure -/

/-- C7 counterexample: a configuration containing a context literally named
`base` makes `finalize` push the base reference onto the base layer itself —
the base layer's emitted manifest then contains a base reference, contrary
to the claim. -/
theorem base_named_context_pollutes_base_layer :
    (lookupLayer
        (finalizeLayers (initArchiver Nat Nat Nat) [{ name := "base".toList }] [])
        baseName).map (fun L => (emitKustomization none L).bases.count basesRef)
      = some 1 := by
  decide

/-- C7 amended: for a configuration whose context names are pairwise
distinct and none of which is `base`, starting from the archiver produced by
the classification loop (whose layers carry no base references), every
context layer's emitted kustomization contains exactly one base reference
`./../base`, and the base layer's contains none. -/
theorem context_layers_single_base_ref {ρ π τ : Type} (items : List (Item ρ π τ))
    (e : Nat) (contexts : List Context) (imgs : List Str) (appName : Option Str)
    (h1 : (contexts.map (·.name)).Nodup)
    (h2 : ∀ ctx ∈ contexts, ctx.name ≠ baseName) :
    (∀ ctx ∈ contexts, ∃ L,
      lookupLayer
          (finalizeLayers (processResources ⟨initArchiver ρ π τ, e⟩ items).sa contexts imgs)
          ctx.name = some L
        ∧ (emitKustomization appName L).bases.count basesRef = 1)
    ∧ ∃ L,
        lookupLayer
            (finalizeLayers (processResources ⟨initArchiver ρ π τ, e⟩ items).sa contexts imgs)
            baseName = some L
          ∧ (emitKustomization appName L).bases.count basesRef = 0 := by
  have hempty : ∀ m L,
      lookupLayer (processResources (⟨initArchiver ρ π τ, e⟩ : Synth ρ π τ) items).sa m
        = some L → L.bases = [] :=
    bases_empty_processResources items _ (bases_empty_initArchiver ρ π τ)
  constructor
  · intro ctx hc
    obtain ⟨L, hL, hbases⟩ := bases_after_finalizeLayers contexts _ imgs h1
      (fun ctx' _ L hL => hempty ctx'.name L hL) ctx hc
    refine ⟨L, hL, ?_⟩
    show L.bases.count basesRef = 1
    rw [hbases]
    simp
  · have hpres : (lookupLayer
        (processResources (⟨initArchiver ρ π τ, e⟩ : Synth ρ π τ) items).sa baseName).isSome :=
      base_present_processResources items _ (by rw [lookupLayer_init]; rfl)
    obtain ⟨L, hL⟩ := Option.isSome_iff_exists.mp hpres
    refine ⟨L, ?_, ?_⟩
    · rw [lookupLayer_finalizeLayers_of_ne contexts _ imgs baseName h2]
      exact hL
    · show L.bases.count basesRef = 0
      rw [hempty baseName L hL]
      rfl

/-- Witness for C7 amended: a single context `dev` over an empty resource
set: the `dev` layer carries exactly one base reference and the base layer
none. -/
theorem context_layers_single_base_ref_w :
    (∀ ctx ∈ [({ name := "dev".toList } : Context)], ∃ L,
      lookupLayer
          (finalizeLayers
            (processResources (⟨initArchiver Nat Nat Nat, 0⟩ : Synth Nat Nat Nat) []).sa
            [{ name := "dev".toList }] [])
          ctx.name = some L
        ∧ (emitKustomization none L).bases.count basesRef = 1)
    ∧ ∃ L,
        lookupLayer
            (finalizeLayers
              (processResources (⟨initArchiver Nat Nat Nat, 0⟩ : Synth Nat Nat Nat) []).sa
              [{ name := "dev".toList }] [])
            baseName = some L
          ∧ (emitKustomization none L).bases.count basesRef = 0 :=
  context_layers_single_base_ref [] 0 [{ name := "dev".toList }] [] none
    (by decide) (by decide)

/-! ## Claim theorems for the classification loop and the config loader -/

/-- C9: classification tries `obj`, then `JSONPatch`, then `patch`, adding
the item under the first truthy field only; an item with none of them
truthy is silently ignored — no layer entry, no error, no warning-counter
increment. -/
theorem classify_first_truthy_field {ρ π τ : Type} (st : Synth ρ π τ) (item : Item ρ π τ) :
    (∀ o, item.obj = some o →
      classifyItem st item =
        { st with sa := addResource st.sa o item.name (item.layer.getD baseName) })
    ∧ (item.obj = none → ∀ p, item.JSONPatch = some p →
        classifyItem st item =
          { st with sa := addJSONPatch st.sa p item.JSONPatchTarget (item.layer.getD baseName) })
    ∧ (item.obj = none → item.JSONPatch = none → ∀ p, item.patch = some p →
        classifyItem st item =
          { st with sa := addPatch st.sa p item.name (item.layer.getD baseName) })
    ∧ (item.obj = none → item.JSONPatch = none → item.patch = none →
        classifyItem st item = st ∧ (classifyItem st item).errors = st.errors
          ∧ (classifyItem st item).sa = st.sa) := by
  refine ⟨?_, ?_, ?_, ?_⟩
  · intro o h
    simp [classifyItem, h]
  · intro h1 p h2
    simp [classifyItem, h1, h2]
  · intro h1 h2 p h3
    simp [classifyItem, h1, h2, h3]
  · intro h1 h2 h3
    simp [classifyItem, h1, h2, h3]

/-- Witness for C9: an item carrying both `obj` and `patch` is classified as
a resource; an item with no truthy field leaves the state untouched. -/
theorem classify_first_truthy_field_w :
    classifyItem (⟨initArchiver Nat Nat Nat, 0⟩ : Synth Nat Nat Nat)
        { obj := some 1, patch := some 2, JSONPatchTarget := ⟨[], 0⟩ } =
      { sa := addResource (initArchiver Nat Nat Nat) 1 [] baseName, errors := 0 }
    ∧ classifyItem (⟨initArchiver Nat Nat Nat, 0⟩ : Synth Nat Nat Nat)
        { JSONPatchTarget := ⟨[], 0⟩ } = ⟨initArchiver Nat Nat Nat, 0⟩ := by
  have h := classify_first_truthy_field (⟨initArchiver Nat Nat Nat, 0⟩ : Synth Nat Nat Nat)
    { obj := some 1, patch := some 2, JSONPatchTarget := ⟨[], 0⟩ }
  have h0 := classify_first_truthy_field (⟨initArchiver Nat Nat Nat, 0⟩ : Synth Nat Nat Nat)
    ({ JSONPatchTarget := ⟨[], 0⟩ } : Item Nat Nat Nat)
  exact ⟨h.1 1 rfl, (h0.2.2.2 rfl rfl rfl).1⟩

/-- C8, evaluated at the failing input: a configuration file that parses to
null (for example, an empty file).  The warning counter is incremented, but
`init` returns the null parse result rather than a configuration whose
`contexts` field is the empty list — the later `config.contexts` accesses
then throw instead of continuing with an empty context set.  For contrast,
the other two conjuncts show the claimed behaviour does hold when the read
or parse itself throws and when `contexts` is missing from a parsed object. -/
theorem init_null_config_not_repaired :
    initModel none false (some ConfigVal.nullish) 0 = (ConfigOut.nullish, 1)
    ∧ (∀ ctxs c, ConfigOut.nullish ≠ ConfigOut.object ctxs c)
    ∧ initModel none false none 0 = (ConfigOut.object [] none, 1)
    ∧ initModel none false (some (ConfigVal.object none)) 0 = (ConfigOut.object [] none, 1) := by
  refine ⟨rfl, ?_, rfl, rfl⟩
  intro ctxs c
  simp

end Solsa
